import Mathlib

/-!
Verification of the metadata-extraction and ranking pipeline of a music
recommendation program (src/main.py) against its natural-language
specification.

Strings are modelled as Lean `String`/`List Char`.  The Python regular
expressions of the source are embedded as executable character-list scanners
that reproduce the leftmost-match / backtracking behaviour of the patterns
actually used.  Modelling notes:
* character classes follow Python `re` on ASCII: `\s` is the six ASCII
  whitespace characters, `\w` is alphanumeric-or-underscore, case folding is
  ASCII; exotic Unicode case folds and non-ASCII word characters are out of
  scope of the model,
* `float` arithmetic of the scoring code is modelled exactly over `ℚ`
  (the accumulated summands 2.0/1.0 are integral, the weights 1.5/0.7/0.8 are
  exact decimals); `math.log10`, an external C library call on floats, enters
  only through the factor `log10(views + 1)` and is modelled as an explicit
  function parameter `l10` of the scoring definitions,
* `round(x, 3)` is modelled as round-half-even at three decimals over `ℚ`,
* Python's stable `list.sort(key=..., reverse=True)` is modelled by a stable
  descending insertion sort.
-/

/-- ASCII model of Python regex `\s` and of the default `str.strip`. -/
def isWsChar (c : Char) : Bool :=
  c == ' ' || c == '\t' || c == '\n' || c == '\r' || c == '\x0b' || c == '\x0c'

/-- ASCII model of Python regex `\w` (word character). -/
def isWordChar (c : Char) : Bool :=
  c.isAlphanum || c == '_'

/-- ASCII lower-casing, modelling `str.lower` / `re.I` on ASCII input. -/
def lowerChar (c : Char) : Char := c.toLower

/-- Drop the trailing characters satisfying `p` (right half of `str.strip`). -/
def trimTrailBy (p : Char → Bool) : List Char → List Char
  | [] => []
  | c :: r =>
    if (trimTrailBy p r).isEmpty && p c then [] else c :: trimTrailBy p r

/-- Python `s.strip(chars)`: drop leading and trailing characters in the set. -/
def trimBy (p : Char → Bool) (l : List Char) : List Char :=
  trimTrailBy p (l.dropWhile p)

/-- Python `s.strip()` (whitespace at both ends). -/
def trimWs (l : List Char) : List Char := trimBy isWsChar l

/-- Length of the maximal whitespace run at the head (a greedy `\s+`/`\s*`). -/
def wsRunLen : List Char → Nat
  | [] => 0
  | c :: r => if isWsChar c then wsRunLen r + 1 else 0

/-- Python `sub in s` substring test. -/
def isSubList (p l : List Char) : Bool :=
  (List.range (l.length + 1)).any (fun i => p.isPrefixOf (l.drop i))

/-- One pass of `re.sub(r"\s+", " ", s)`: every whitespace run becomes a single
space.  `inRun` records that the current run's replacement was already
emitted. -/
def collapseWsAll (inRun : Bool) : List Char → List Char
  | [] => []
  | c :: r =>
    if isWsChar c then
      if inRun then collapseWsAll true r else ' ' :: collapseWsAll true r
    else c :: collapseWsAll false r

/-- Python `raw.replace(",", " ")`. -/
def replaceCommas (l : List Char) : List Char :=
  l.map (fun c => if c == ',' then ' ' else c)

/-- The `build_ytmusic_query` function from src/main.py: accepts a string or a
sequence of strings, joins a sequence with single spaces, strips, replaces
commas with spaces and collapses whitespace runs. -/
def build_ytmusic_query (keywords : String ⊕ List String) : String :=
  let raw : String :=
    match keywords with
    | Sum.inl s => s
    | Sum.inr l => String.intercalate " " l
  String.mk (collapseWsAll false (replaceCommas (trimWs raw.data)))

/-- All whitespace characters are plain spaces and no two are adjacent:
the shape of `re.sub(r"\s+", " ", s)` output. -/
def singleSpaced : List Char → Bool
  | [] => true
  | [c] => !isWsChar c || c == ' '
  | c :: d :: r =>
    (!isWsChar c || (c == ' ' && !isWsChar d)) && singleSpaced (d :: r)

/-- Head of a list is not whitespace (vacuously true for the empty list). -/
def headNonWs : List Char → Bool
  | [] => true
  | c :: _ => !isWsChar c

theorem singleSpaced_tail {c : Char} {r : List Char}
    (h : singleSpaced (c :: r) = true) : singleSpaced r = true := by
  cases r with
  | nil => rfl
  | cons d r' =>
    simp only [singleSpaced, Bool.and_eq_true] at h
    exact h.2

theorem singleSpaced_head_space {c : Char} {r : List Char}
    (h : singleSpaced (c :: r) = true) (hws : isWsChar c = true) : c = ' ' := by
  cases r with
  | nil =>
    simp only [singleSpaced, hws, Bool.not_true, Bool.false_or, beq_iff_eq] at h
    exact h
  | cons d r' =>
    simp only [singleSpaced, Bool.and_eq_true, hws, Bool.not_true, Bool.false_or,
      beq_iff_eq] at h
    exact h.1.1

theorem singleSpaced_head_adj {c : Char} {r : List Char}
    (h : singleSpaced (c :: r) = true) (hws : isWsChar c = true) :
    headNonWs r = true := by
  cases r with
  | nil => rfl
  | cons d r' =>
    simp only [singleSpaced, Bool.and_eq_true, hws, Bool.not_true, Bool.false_or,
      beq_iff_eq] at h
    simpa [headNonWs] using h.1.2

theorem singleSpaced_cons {c : Char} {r : List Char} (hc : isWsChar c = true → c = ' ')
    (hadj : isWsChar c = true → headNonWs r = true)
    (hr : singleSpaced r = true) : singleSpaced (c :: r) = true := by
  cases r with
  | nil =>
    by_cases h : isWsChar c = true
    · simp [singleSpaced, hc h]
    · simp [singleSpaced, h]
  | cons d r' =>
    by_cases h : isWsChar c = true
    · have hd : isWsChar d = false := by
        have := hadj h
        simpa [headNonWs] using this
      simp [singleSpaced, hc h, hd, hr]
    · simp [singleSpaced, h, hr]

theorem collapseWsAll_true_eq (l : List Char) :
    collapseWsAll true l = collapseWsAll false (l.dropWhile isWsChar) := by
  induction l with
  | nil => rfl
  | cons c r ih =>
    by_cases h : isWsChar c = true
    · simp [collapseWsAll, h, List.dropWhile, ih]
    · simp [collapseWsAll, h, List.dropWhile]

theorem headNonWs_collapseWsAll_dropWhile (l : List Char) :
    headNonWs (collapseWsAll false (l.dropWhile isWsChar)) = true := by
  induction l with
  | nil => rfl
  | cons c r ih =>
    by_cases h : isWsChar c = true
    · simpa [List.dropWhile, h] using ih
    · simp [List.dropWhile, h, collapseWsAll, headNonWs]

theorem singleSpaced_collapseWsAll (l : List Char) :
    singleSpaced (collapseWsAll false l) = true ∧
      singleSpaced (collapseWsAll true l) = true := by
  induction l with
  | nil => exact ⟨rfl, rfl⟩
  | cons c r ih =>
    by_cases h : isWsChar c = true
    · constructor
      · simp only [collapseWsAll, h, if_true]
        refine singleSpaced_cons (fun _ => rfl) (fun _ => ?_) ih.2
        rw [collapseWsAll_true_eq]
        exact headNonWs_collapseWsAll_dropWhile r
      · simpa [collapseWsAll, h] using ih.2
    · have hcons : ∀ b : Bool, collapseWsAll b (c :: r) = c :: collapseWsAll false r := by
        intro b
        cases b <;> simp [collapseWsAll, h]
      constructor <;>
      · rw [hcons]
        exact singleSpaced_cons (fun hww => absurd hww h) (fun hww => absurd hww h) ih.1

theorem collapseWsAll_eq_self {l : List Char} (h : singleSpaced l = true) :
    collapseWsAll false l = l := by
  induction l with
  | nil => rfl
  | cons c r ih =>
    by_cases hws : isWsChar c = true
    · have hsp := singleSpaced_head_space h hws
      have hadj := singleSpaced_head_adj h hws
      cases r with
      | nil => simp [collapseWsAll, hws, hsp, collapseWsAll_true_eq]
      | cons d r' =>
        have hd : isWsChar d = false := by simpa [headNonWs] using hadj
        have h2 : collapseWsAll true (d :: r') = collapseWsAll false (d :: r') := by
          simp [collapseWsAll, hd]
        have ihr : collapseWsAll false (d :: r') = d :: r' :=
          ih (singleSpaced_tail h)
        calc collapseWsAll false (c :: d :: r')
            = ' ' :: collapseWsAll true (d :: r') := by simp [collapseWsAll, hws]
          _ = ' ' :: collapseWsAll false (d :: r') := by rw [h2]
          _ = ' ' :: d :: r' := by rw [ihr]
          _ = c :: d :: r' := by rw [hsp]
    · have ihr := ih (singleSpaced_tail h)
      simp [collapseWsAll, hws, ihr]

theorem singleSpaced_dropWhile (p : Char → Bool) {l : List Char}
    (h : singleSpaced l = true) : singleSpaced (l.dropWhile p) = true := by
  induction l with
  | nil => exact h
  | cons c r ih =>
    by_cases hp : p c = true
    · simpa [List.dropWhile, hp] using ih (singleSpaced_tail h)
    · simpa [List.dropWhile, hp] using h

theorem headNonWs_trimTrailBy (p : Char → Bool) {l : List Char}
    (h : headNonWs l = true) : headNonWs (trimTrailBy p l) = true := by
  cases l with
  | nil => rfl
  | cons c r =>
    by_cases hc : ((trimTrailBy p r).isEmpty && p c) = true
    · simp [trimTrailBy, hc, headNonWs]
    · simp only [trimTrailBy, hc, if_false, Bool.false_eq_true]
      simpa [headNonWs] using h

theorem singleSpaced_trimTrailBy (p : Char → Bool) {l : List Char}
    (h : singleSpaced l = true) : singleSpaced (trimTrailBy p l) = true := by
  induction l with
  | nil => exact h
  | cons c r ih =>
    by_cases hc : ((trimTrailBy p r).isEmpty && p c) = true
    · simp [trimTrailBy, hc, singleSpaced]
    · simp only [trimTrailBy, hc, if_false, Bool.false_eq_true]
      refine singleSpaced_cons (singleSpaced_head_space h) (fun hws => ?_)
        (ih (singleSpaced_tail h))
      exact headNonWs_trimTrailBy p (singleSpaced_head_adj h hws)

theorem singleSpaced_trimWs {l : List Char} (h : singleSpaced l = true) :
    singleSpaced (trimWs l) = true :=
  singleSpaced_trimTrailBy isWsChar (singleSpaced_dropWhile isWsChar h)

/-- No comma occurs in the list. -/
def noComma (l : List Char) : Bool := l.all (fun c => !(c == ','))

theorem noComma_iff {l : List Char} : noComma l = true ↔ ∀ c ∈ l, c ≠ ',' := by
  simp [noComma, List.all_eq_true]

theorem noComma_replaceCommas (l : List Char) : noComma (replaceCommas l) = true := by
  rw [noComma_iff]
  simp only [replaceCommas, List.mem_map]
  rintro x ⟨c, _, rfl⟩
  by_cases h : c = ','
  · simp [h]
  · simp [h]

theorem mem_collapseWsAll {x : Char} {b : Bool} {l : List Char}
    (h : x ∈ collapseWsAll b l) : x = ' ' ∨ x ∈ l := by
  induction l generalizing b with
  | nil => simp [collapseWsAll] at h
  | cons c r ih =>
    by_cases hws : isWsChar c = true
    · cases b with
      | true =>
        simp only [collapseWsAll, hws, if_true] at h
        rcases ih h with h1 | h1
        · exact Or.inl h1
        · exact Or.inr (List.mem_cons_of_mem _ h1)
      | false =>
        simp [collapseWsAll, hws] at h
        rcases h with h1 | h1
        · exact Or.inl h1
        · rcases ih h1 with h2 | h2
          · exact Or.inl h2
          · exact Or.inr (List.mem_cons_of_mem _ h2)
    · simp [collapseWsAll, hws] at h
      rcases h with h1 | h1
      · exact Or.inr (h1 ▸ List.mem_cons_self c r)
      · rcases ih h1 with h2 | h2
        · exact Or.inl h2
        · exact Or.inr (List.mem_cons_of_mem _ h2)

theorem noComma_collapseWsAll (b : Bool) {l : List Char} (h : noComma l = true) :
    noComma (collapseWsAll b l) = true := by
  rw [noComma_iff] at h ⊢
  intro x hx
  rcases mem_collapseWsAll hx with h1 | h1
  · simp [h1]
  · exact h x h1

theorem noComma_dropWhile (p : Char → Bool) {l : List Char} (h : noComma l = true) :
    noComma (l.dropWhile p) = true := by
  rw [noComma_iff] at h ⊢
  intro x hx
  exact h x ((List.dropWhile_sublist p).mem hx)

theorem mem_trimTrailBy {x : Char} (p : Char → Bool) {l : List Char}
    (h : x ∈ trimTrailBy p l) : x ∈ l := by
  induction l with
  | nil => simp [trimTrailBy] at h
  | cons c r ih =>
    by_cases hc : ((trimTrailBy p r).isEmpty && p c) = true
    · simp [trimTrailBy, hc] at h
    · simp only [trimTrailBy, hc, if_false, Bool.false_eq_true, List.mem_cons] at h
      rcases h with h1 | h1
      · exact h1 ▸ List.mem_cons_self c r
      · exact List.mem_cons_of_mem _ (ih h1)

theorem noComma_trimTrailBy (p : Char → Bool) {l : List Char} (h : noComma l = true) :
    noComma (trimTrailBy p l) = true := by
  rw [noComma_iff] at h ⊢
  intro x hx
  exact h x (mem_trimTrailBy p hx)

theorem replaceCommas_eq_self {l : List Char} (h : noComma l = true) :
    replaceCommas l = l := by
  rw [noComma_iff] at h
  simp only [replaceCommas]
  conv_rhs => rw [(List.map_id l).symm]
  refine List.map_congr_left (fun c hc => ?_)
  simp [h c hc]

/-- C1 (amended): `build_ytmusic_query` is not idempotent in general; a second
application is exactly a whitespace strip of the first result.  Idempotence
holds precisely when the first result carries no leading or trailing
whitespace (which a leading or trailing comma in the input defeats). -/
theorem c1_buildQuery_twice_eq_strip (x : String ⊕ List String) :
    build_ytmusic_query (Sum.inl (build_ytmusic_query x)) =
      String.mk (trimWs (build_ytmusic_query x).data) := by
  cases x with
  | inl s =>
    simp only [build_ytmusic_query]
    set y := collapseWsAll false (replaceCommas (trimWs s.data)) with hy
    have hss : singleSpaced y = true := (singleSpaced_collapseWsAll _).1
    have hnc : noComma y = true :=
      noComma_collapseWsAll false
        (by
          have := noComma_replaceCommas (trimWs s.data)
          exact this)
    have hss' : singleSpaced (trimWs y) = true := singleSpaced_trimWs hss
    have hnc' : noComma (trimWs y) = true :=
      noComma_trimTrailBy isWsChar (noComma_dropWhile isWsChar hnc)
    rw [replaceCommas_eq_self hnc', collapseWsAll_eq_self hss']
  | inr ls =>
    simp only [build_ytmusic_query]
    set y := collapseWsAll false
      (replaceCommas (trimWs (String.intercalate " " ls).data)) with hy
    have hss : singleSpaced y = true := (singleSpaced_collapseWsAll _).1
    have hnc : noComma y = true :=
      noComma_collapseWsAll false (noComma_replaceCommas _)
    have hss' : singleSpaced (trimWs y) = true := singleSpaced_trimWs hss
    have hnc' : noComma (trimWs y) = true :=
      noComma_trimTrailBy isWsChar (noComma_dropWhile isWsChar hnc)
    rw [replaceCommas_eq_self hnc', collapseWsAll_eq_self hss']

/-- C1 (counterexample): on the input string `",a,"` the built query is
`" a "` (the commas become spaces that the final collapse keeps), and a second
application strips them, so `buildQuery` is not idempotent. -/
theorem c1_cex :
    build_ytmusic_query (Sum.inl ",a,") = " a " ∧
      build_ytmusic_query (Sum.inl (build_ytmusic_query (Sum.inl ",a,"))) = "a" ∧
      ("a" : String) ≠ " a " := by
  refine ⟨by decide, by decide, by decide⟩

/-- Lower-case a character list (ASCII), for `re.I` matching and `str.lower`. -/
def toLowerList (l : List Char) : List Char := l.map lowerChar

/-- Case-insensitive prefix test used by the embedded regex scanners. -/
def startsWithCI (w : String) (l : List Char) : Bool :=
  w.data.isPrefixOf (toLowerList l)

/-- Stage 1 of `_clean_title`, `re.sub(r"\[[^\]]*\]", "", s)`: each `[` that has
a later `]` is removed together with everything up to and including the first
such `]`; a `[` with no later `]` stays.  `skipping` is true while inside a
match being deleted. -/
def rbGo : Bool → List Char → List Char
  | _, [] => []
  | true, c :: r => if c == ']' then rbGo false r else rbGo true r
  | false, c :: r =>
    if c == '[' && r.any (fun x => x == ']') then rbGo true r else c :: rbGo false r

/-- Effective head vocabulary of stage 2's pattern
`\((?:official|mv|m/v|lyric|audio|teaser|performance|ver\.?|version|shorts|full album|visualizer)[^)]*\)`
(`ver\.?` and `version` collapse to the prefix `ver` because `[^)]*` follows). -/
def parenVocab : List String :=
  ["official", "mv", "m/v", "lyric", "audio", "teaser", "performance", "ver",
   "shorts", "full album", "visualizer"]

def startsParenVocab (l : List Char) : Bool :=
  parenVocab.any (fun w => startsWithCI w l)

/-- Stage 2 of `_clean_title`: a `(` followed immediately (case-insensitively)
by a vocabulary word and by some later `)` is removed up to and including the
first such `)`. -/
def rpGo : Bool → List Char → List Char
  | _, [] => []
  | true, c :: r => if c == ')' then rpGo false r else rpGo true r
  | false, c :: r =>
    if c == '(' && startsParenVocab r && r.any (fun x => x == ')') then rpGo true r
    else c :: rpGo false r

/-- Word-boundary check after an alternative ending in a word character:
next character absent or not a word character. -/
def bAfterOk : List Char → Bool
  | [] => true
  | c :: _ => !isWordChar c

/-- Match of stage 3's alternation
`(?i)\b(official\s*(video)?|mv|m/v|lyric\s*video|audio|teaser|visualizer|shorts)\b`
at the head of `l` (the leading `\b` is checked by the caller); returns the
matched length.  The `official` branch reproduces the backtracking of
`official\s*(video)?` followed by `\b`: greedy `\s*` with `video` first, then
the empty `(video)?` whose boundary sits between the consumed whitespace and a
following word character, finally no consumed whitespace at all. -/
def tryVocab (l : List Char) : Option Nat :=
  if startsWithCI "official" l then
    let rest := l.drop 8
    let k := wsRunLen rest
    let r2 := rest.drop k
    if startsWithCI "video" r2 && bAfterOk (r2.drop 5) then some (8 + k + 5)
    else if 0 < k then
      match r2 with
      | [] => some 8
      | c :: _ => if isWordChar c then some (8 + k) else some 8
    else
      match rest with
      | [] => some 8
      | c :: _ => if isWordChar c then none else some 8
  else if startsWithCI "mv" l && bAfterOk (l.drop 2) then some 2
  else if startsWithCI "m/v" l && bAfterOk (l.drop 3) then some 3
  else if startsWithCI "lyric" l then
    let rest := l.drop 5
    let k := wsRunLen rest
    let r2 := rest.drop k
    if startsWithCI "video" r2 && bAfterOk (r2.drop 5) then some (5 + k + 5)
    else none
  else if startsWithCI "audio" l && bAfterOk (l.drop 5) then some 5
  else if startsWithCI "teaser" l && bAfterOk (l.drop 6) then some 6
  else if startsWithCI "visualizer" l && bAfterOk (l.drop 10) then some 10
  else if startsWithCI "shorts" l && bAfterOk (l.drop 6) then some 6
  else none

/-- Stage 3 scanner of `_clean_title`: global `re.sub` of the boundary-guarded
vocabulary alternation.  The first argument counts characters of a match still
to be deleted, the second records whether the previous character of the
original string is a word character (for the leading `\b`). -/
def rvGo : Nat → Bool → List Char → List Char
  | _, _, [] => []
  | Nat.succ n, _, c :: r => rvGo n (isWordChar c) r
  | 0, pw, c :: r =>
    if pw then c :: rvGo 0 (isWordChar c) r
    else
      match tryVocab (c :: r) with
      | some n => rvGo (n - 1) (isWordChar c) r
      | none => c :: rvGo 0 (isWordChar c) r

def noNewline (l : List Char) : Bool := l.all (fun c => !(c == '\n'))

/-- Can `\s*.*$` consume the whole remainder `r` (Python `$`: end of string)?
True iff after a whitespace prefix no newline remains. -/
def toEndOk (r : List Char) : Bool := noNewline (r.dropWhile isWsChar)

/-- Match of stage 4's pattern `\s+\|\s*.*$` starting exactly at the head:
a nonempty whitespace run, then `|`, then a remainder consumable by
`\s*.*$` ending at the end of the string or just before a final newline
(which then survives).  Returns the text replacing the match and everything
consumed, i.e. the tail that the scan leaves in place. -/
def pipeMatchAt (l : List Char) : Option (List Char) :=
  let k := wsRunLen l
  if k == 0 then none
  else
    match l.drop k with
    | c :: r =>
      if c == '|' then
        if toEndOk r then some []
        else if (r.getLast? == some '\n') && toEndOk r.dropLast then some ['\n']
        else none
      else none
    | [] => none

/-- Stage 4 of `_clean_title`, `re.sub(r"\s+\|\s*.*$", "", s)`: leftmost match
of a whitespace run followed by a pipe truncates the string there. -/
def stepPipe : List Char → List Char
  | [] => []
  | c :: r =>
    match pipeMatchAt (c :: r) with
    | some tail => tail
    | none => c :: stepPipe r

/-- Stage 5a of `_clean_title`, `re.sub(r"\s{2,}", " ", s)`: only whitespace
runs of length at least two become a single space; a lone whitespace character
(also a lone tab or newline) is kept as is. -/
def collapseWs2 : Bool → List Char → List Char
  | _, [] => []
  | true, c :: r => if isWsChar c then collapseWs2 true r else c :: collapseWs2 false r
  | false, c :: r =>
    if isWsChar c then
      match r with
      | [] => [c]
      | d :: _ => if isWsChar d then ' ' :: collapseWs2 true r else c :: collapseWs2 false r
    else c :: collapseWs2 false r

/-- The character set of stage 5b, `.strip(" -|")`. -/
def isStripSetChar (c : Char) : Bool := c == ' ' || c == '-' || c == '|'

/-- The `_clean_title` function from src/main.py on character lists: bracket
removal, parenthesized-vocabulary removal, bare-vocabulary removal, whitespace-
pipe truncation, whitespace collapsing, `.strip(" -|")` and final `.strip()`. -/
def cleanCore (l : List Char) : List Char :=
  trimWs (trimBy isStripSetChar (collapseWs2 false
    (stepPipe (rvGo 0 false (rpGo false (rbGo false l))))))

/-- The `_clean_title` function from src/main.py on strings. -/
def clean_title (s : String) : String := String.mk (cleanCore s.data)

/-- Some whitespace run of `l` is immediately followed by a pipe (the trigger
of stage 4's pattern, ignoring its end-of-line condition). -/
def hasWsPipe : List Char → Bool
  | [] => false
  | c :: r =>
    (isWsChar c && ((r.dropWhile isWsChar).head? == some '|')) || hasWsPipe r

theorem drop_wsRunLen (l : List Char) :
    l.drop (wsRunLen l) = l.dropWhile isWsChar := by
  induction l with
  | nil => rfl
  | cons c r ih =>
    by_cases h : isWsChar c = true
    · simp [wsRunLen, h, List.dropWhile, ih]
    · simp [wsRunLen, h, List.dropWhile]

theorem noNewline_dropWhile (p : Char → Bool) {l : List Char}
    (h : noNewline l = true) : noNewline (l.dropWhile p) = true := by
  simp only [noNewline, List.all_eq_true] at h ⊢
  intro x hx
  exact h x ((List.dropWhile_sublist p).mem hx)

theorem pipeMatchAt_eq_none_of_nonWs {c : Char} {r : List Char}
    (h : isWsChar c = false) : pipeMatchAt (c :: r) = none := by
  simp [pipeMatchAt, wsRunLen, h]

theorem pipeMatchAt_eq_none_of_head {l : List Char}
    (h : ((l.dropWhile isWsChar).head? == some '|') = false) :
    pipeMatchAt l = none := by
  unfold pipeMatchAt
  by_cases hk : (wsRunLen l == 0) = true
  · simp [hk]
  · rw [if_neg (by simpa using hk), drop_wsRunLen]
    cases hdw : l.dropWhile isWsChar with
    | nil => simp
    | cons d t =>
      have hd : (d == '|') = false := by
        rw [hdw] at h
        simpa using h
      simp [hd]

theorem stepPipe_eq_self {l : List Char} (h : hasWsPipe l = false) :
    stepPipe l = l := by
  induction l with
  | nil => rfl
  | cons c r ih =>
    simp only [hasWsPipe, Bool.or_eq_false_iff, Bool.and_eq_false_iff] at h
    have hnone : pipeMatchAt (c :: r) = none := by
      by_cases hw : isWsChar c = true
      · rcases h.1 with h1 | h1
        · exact absurd hw (by simp [h1])
        · refine pipeMatchAt_eq_none_of_head ?_
          have : (c :: r).dropWhile isWsChar = r.dropWhile isWsChar := by
            simp [List.dropWhile, hw]
          rw [this]
          exact h1
      · exact pipeMatchAt_eq_none_of_nonWs (by simpa using hw)
    simp only [stepPipe, hnone]
    exact congrArg (c :: ·) (ih h.2)

theorem dropWhile_append_of_ne_nil (p : Char → Bool) {a : List Char}
    (b : List Char) (h : a.dropWhile p ≠ []) :
    (a ++ b).dropWhile p = a.dropWhile p ++ b := by
  induction a with
  | nil => exact absurd rfl h
  | cons c r ih =>
    by_cases hc : p c = true
    · have h' : r.dropWhile p ≠ [] := by
        simpa [List.dropWhile, hc] using h
      simpa [List.dropWhile, hc] using ih h'
    · simp [List.dropWhile, hc]

theorem wsRunLen_append_all_ws {run : List Char} (l : List Char)
    (hws : run.all isWsChar = true) (hl : headNonWs l = true) :
    wsRunLen (run ++ l) = run.length := by
  induction run with
  | nil =>
    cases l with
    | nil => rfl
    | cons c r =>
      have hc : isWsChar c = false := by simpa [headNonWs] using hl
      simp [wsRunLen, hc]
  | cons c r ih =>
    simp only [List.all_cons, Bool.and_eq_true] at hws
    simp [wsRunLen, hws.1, ih hws.2]

/-- The match of stage 4's pattern at the head of a nonempty whitespace run
followed by a pipe: whether and how it completes depends only on the text
after the pipe. -/
theorem pipeMatchAt_run (run s2 : List Char) (hne : run ≠ [])
    (hws : run.all isWsChar = true) :
    pipeMatchAt (run ++ '|' :: s2) =
      if toEndOk s2 then some []
      else if (s2.getLast? == some '\n') && toEndOk s2.dropLast then some ['\n']
      else none := by
  have hk : wsRunLen (run ++ '|' :: s2) = run.length :=
    wsRunLen_append_all_ws ('|' :: s2) hws rfl
  have hlen : (run.length == 0) = false := by
    cases run with
    | nil => exact absurd rfl hne
    | cons c r => rfl
  simp only [pipeMatchAt, hk, hlen, List.drop_left, Bool.false_eq_true,
    if_false]
  simp

/-- Stage 4's scan over a nonempty whitespace run followed by a pipe: when
the `$`-part can complete, the match removes everything from the run on
(keeping a final newline that `$` stops before); when an interior newline
defeats `.*$`, the occurrence is skipped and the scan continues after the
pipe. -/
theorem stepPipe_at_run (run s2 : List Char) (hne : run ≠ [])
    (hws : run.all isWsChar = true) :
    stepPipe (run ++ '|' :: s2) =
      if toEndOk s2 then []
      else if (s2.getLast? == some '\n') && toEndOk s2.dropLast then ['\n']
      else run ++ '|' :: stepPipe s2 := by
  induction run with
  | nil => exact absurd rfl hne
  | cons c run' ih =>
    have hm : pipeMatchAt (c :: (run' ++ '|' :: s2)) =
        if toEndOk s2 then some []
        else if (s2.getLast? == some '\n') && toEndOk s2.dropLast then some ['\n']
        else none := by
      have h0 := pipeMatchAt_run (c :: run') s2 (by simp) hws
      rw [List.cons_append] at h0
      exact h0
    simp only [List.all_cons, Bool.and_eq_true] at hws
    rw [List.cons_append]
    by_cases ht : toEndOk s2 = true
    · have hm' : pipeMatchAt (c :: (run' ++ '|' :: s2)) = some [] := by
        rw [hm, if_pos ht]
      simp only [stepPipe, hm']
      simp [ht]
    · by_cases hb : ((s2.getLast? == some '\n') && toEndOk s2.dropLast) = true
      · have hm' : pipeMatchAt (c :: (run' ++ '|' :: s2)) = some ['\n'] := by
          rw [hm, if_neg ht, if_pos hb]
        simp only [stepPipe, hm']
        simp [ht, hb]
      · have hm' : pipeMatchAt (c :: (run' ++ '|' :: s2)) = none := by
          rw [hm, if_neg ht, if_neg hb]
        simp only [stepPipe, hm']
        cases run' with
        | nil =>
          have hp : pipeMatchAt ('|' :: s2) = none :=
            pipeMatchAt_eq_none_of_nonWs rfl
          simp only [List.nil_append, stepPipe, hp]
          simp [ht, hb]
        | cons d run'' =>
          rw [ih (by simp) hws.2]
          simp [ht, hb]

/-- C2 (amended): stage 4 of `clean` truncates at the first whitespace run
immediately followed by `|`, exactly as far as `\s+\|\s*.*$` can match: when
past the pipe no newline remains after an optional whitespace prefix, the
whitespace, the pipe and everything after them are removed; when the rest
ends with a final newline and is otherwise newline-free past a whitespace
prefix, everything except that surviving final newline is removed; when an
interior newline defeats `.*$`, this occurrence does not truncate and the
substitution is attempted further right.  (A pipe not preceded by whitespace
never truncates; see the counterexample.) -/
theorem c2_stepPipe_truncates_at_ws_pipe (s1 run s2 : List Char)
    (h1 : hasWsPipe s1 = false)
    (h2 : s1.getLast?.all (fun c => !isWsChar c) = true)
    (hne : run ≠ []) (hws : run.all isWsChar = true) :
    stepPipe (s1 ++ (run ++ '|' :: s2)) =
      if toEndOk s2 then s1
      else if (s2.getLast? == some '\n') && toEndOk s2.dropLast then s1 ++ ['\n']
      else s1 ++ (run ++ '|' :: stepPipe s2) := by
  induction s1 with
  | nil =>
    rw [List.nil_append, stepPipe_at_run run s2 hne hws]
    by_cases ht : toEndOk s2 = true
    · simp [ht]
    · by_cases hb : ((s2.getLast? == some '\n') && toEndOk s2.dropLast) = true
      · simp [ht, hb]
      · simp [ht, hb]
  | cons c s1' ih =>
    simp only [hasWsPipe, Bool.or_eq_false_iff, Bool.and_eq_false_iff] at h1
    have h2' : s1'.getLast?.all (fun c => !isWsChar c) = true := by
      cases s1' with
      | nil => rfl
      | cons d t => rw [← List.getLast?_cons_cons (a := c)]; exact h2
    have hnone : pipeMatchAt (c :: (s1' ++ (run ++ '|' :: s2))) = none := by
      by_cases hw : isWsChar c = true
      · have hA : ((s1'.dropWhile isWsChar).head? == some '|') = false := by
          rcases h1.1 with h1a | h1a
          · exact absurd hw (by simp [h1a])
          · exact h1a
        have hs1ne : s1' ≠ [] := by
          intro hnil
          subst hnil
          simp [List.getLast?, hw] at h2
        have hdne : s1'.dropWhile isWsChar ≠ [] := by
          intro hnil
          rw [List.dropWhile_eq_nil_iff] at hnil
          obtain ⟨a, ha⟩ := List.getLast?_isSome.2 hs1ne |> Option.isSome_iff_exists.1
          have hmem : a ∈ s1' := List.mem_of_mem_getLast? ha
          have : (!isWsChar a) = true := by
            rw [ha] at h2'
            simpa using h2'
          simp [hnil a hmem] at this
        refine pipeMatchAt_eq_none_of_head ?_
        have hstep : (c :: (s1' ++ (run ++ '|' :: s2))).dropWhile isWsChar
            = s1'.dropWhile isWsChar ++ (run ++ '|' :: s2) := by
          rw [List.dropWhile_cons_of_pos hw]
          exact dropWhile_append_of_ne_nil isWsChar _ hdne
        rw [hstep]
        cases hdw : s1'.dropWhile isWsChar with
        | nil => exact absurd hdw hdne
        | cons d t =>
          rw [hdw] at hA
          simpa using hA
      · exact pipeMatchAt_eq_none_of_nonWs (by simpa using hw)
    show stepPipe ((c :: s1') ++ (run ++ '|' :: s2)) = _
    rw [List.cons_append]
    simp only [stepPipe]
    rw [hnone, ih h1.2 h2']
    by_cases ht : toEndOk s2 = true
    · simp [ht]
    · by_cases hb : ((s2.getLast? == some '\n') && toEndOk s2.dropLast) = true
      · simp [ht, hb]
      · simp [ht, hb]

/-- C2 (witness for the amended theorem at concrete inputs): a two-character
mixed whitespace run, once with a newline-free tail (full truncation), once
with a tail ending in a newline (the newline survives), and once with an
interior newline (no truncation at this pipe). -/
theorem c2_stepPipe_truncates_at_ws_pipe_witness :
    hasWsPipe "ab".data = false ∧
      ("ab".data.getLast?.all (fun c => !isWsChar c)) = true ∧
      ('\t' :: [' ']) ≠ ([] : List Char) ∧
      (('\t' :: [' ']).all isWsChar) = true ∧
      stepPipe ("ab".data ++ (('\t' :: [' ']) ++ '|' :: "cd".data)) =
        (if toEndOk "cd".data then "ab".data
         else if ("cd".data.getLast? == some '\n') && toEndOk "cd".data.dropLast
           then "ab".data ++ ['\n']
         else "ab".data ++ (('\t' :: [' ']) ++ '|' :: stepPipe "cd".data)) ∧
      stepPipe ("ab".data ++ (('\t' :: [' ']) ++ '|' :: "cd".data)) = "ab".data ∧
      stepPipe ("ab".data ++ ((' ' :: []) ++ '|' :: "cd\n".data)) =
        "ab\n".data ∧
      stepPipe ("ab".data ++ ((' ' :: []) ++ '|' :: "c\nd".data)) =
        "ab |c\nd".data :=
  ⟨by decide, by decide, by decide, by decide,
    c2_stepPipe_truncates_at_ws_pipe "ab".data ('\t' :: [' ']) "cd".data
      (by decide) (by decide) (by decide) (by decide),
    by decide, by decide, by decide⟩

/-- Stage 4 as claim C2 words it (truncate at the first `|` and everything
after it, the pipe included), kept only to exhibit the counterexample. -/
def truncAtPipeClaim (l : List Char) : List Char :=
  l.takeWhile (fun c => !(c == '|'))

/-- The cleaning pipeline with stage 4 replaced by claim C2's reading. -/
def cleanClaimC2 (l : List Char) : List Char :=
  trimWs (trimBy isStripSetChar (collapseWs2 false
    (truncAtPipeClaim (rvGo 0 false (rpGo false (rbGo false l))))))

/-- C2 (counterexample): on `"a|b"`, whose pipe is not preceded by whitespace,
the claimed truncation would give `"a"`, but `_clean_title` keeps the pipe:
the regex is `\s+\|\s*.*$`, so a pipe only truncates together with preceding
whitespace. -/
theorem c2_cex :
    clean_title "a|b" = "a|b" ∧ cleanClaimC2 ("a|b".data) = "a".data ∧
      ("a|b" : String) ≠ "a" :=
  ⟨by decide, by decide, by decide⟩

theorem rbGo_eq_self {l : List Char} (h : l.any (fun x => x == '[') = false) :
    rbGo false l = l := by
  induction l with
  | nil => rfl
  | cons c r ih =>
    simp only [List.any_cons, Bool.or_eq_false_iff] at h
    have hc : (c == '[') = false := h.1
    simp only [rbGo, hc, Bool.false_and, Bool.false_eq_true, if_false]
    exact congrArg (c :: ·) (ih h.2)

theorem rpGo_eq_self {l : List Char} (h : l.any (fun x => x == '(') = false) :
    rpGo false l = l := by
  induction l with
  | nil => rfl
  | cons c r ih =>
    simp only [List.any_cons, Bool.or_eq_false_iff] at h
    have hc : (c == '(') = false := h.1
    simp only [rpGo, hc, Bool.false_and, Bool.false_eq_true, if_false]
    exact congrArg (c :: ·) (ih h.2)

/-- The eight head words of stage 3's alternation (enough to trigger it). -/
def vocabStems : List String :=
  ["official", "mv", "m/v", "lyric", "audio", "teaser", "visualizer", "shorts"]

/-- No vocabulary stem occurs (case-insensitively) as a substring. -/
def noVocabStem (l : List Char) : Bool :=
  vocabStems.all (fun w => !isSubList w.data (toLowerList l))

theorem isSubList_of_isPrefixOf {p l : List Char} (h : p.isPrefixOf l = true) :
    isSubList p l = true := by
  simp only [isSubList, List.any_eq_true, List.mem_range]
  exact ⟨0, by omega, by simpa using h⟩

theorem isSubList_cons {p : List Char} (c : Char) {l : List Char}
    (h : isSubList p l = true) : isSubList p (c :: l) = true := by
  simp only [isSubList, List.any_eq_true, List.mem_range] at h ⊢
  obtain ⟨i, hi, hp⟩ := h
  refine ⟨i + 1, by simpa using by omega, ?_⟩
  simpa using hp

theorem noVocabStem_tail {c : Char} {l : List Char}
    (h : noVocabStem (c :: l) = true) : noVocabStem l = true := by
  simp only [noVocabStem, List.all_eq_true, Bool.not_eq_true'] at h ⊢
  intro w hw
  cases hb : isSubList w.data (toLowerList l) with
  | false => rfl
  | true =>
    have : isSubList w.data (toLowerList (c :: l)) = true := by
      have := isSubList_cons (lowerChar c) hb
      simpa [toLowerList] using this
    rw [h w hw] at this
    exact absurd this (by simp)

theorem tryVocab_eq_none {l : List Char}
    (h : ∀ w ∈ vocabStems, w.data.isPrefixOf (toLowerList l) = false) :
    tryVocab l = none := by
  have h1 := h "official" (by simp [vocabStems])
  have h2 := h "mv" (by simp [vocabStems])
  have h3 := h "m/v" (by simp [vocabStems])
  have h4 := h "lyric" (by simp [vocabStems])
  have h5 := h "audio" (by simp [vocabStems])
  have h6 := h "teaser" (by simp [vocabStems])
  have h7 := h "visualizer" (by simp [vocabStems])
  have h8 := h "shorts" (by simp [vocabStems])
  simp [tryVocab, startsWithCI, h1, h2, h3, h4, h5, h6, h7, h8]

theorem rvGo_eq_self {l : List Char} (h : noVocabStem l = true) :
    ∀ pw : Bool, rvGo 0 pw l = l := by
  induction l with
  | nil => intro pw; rfl
  | cons c r ih =>
    intro pw
    have htv : tryVocab (c :: r) = none := by
      apply tryVocab_eq_none
      intro w hw
      simp only [noVocabStem, List.all_eq_true, Bool.not_eq_true'] at h
      cases hb : w.data.isPrefixOf (toLowerList (c :: r)) with
      | false => rfl
      | true =>
        have := isSubList_of_isPrefixOf hb
        rw [h w hw] at this
        exact absurd this (by simp)
    have hr := ih (noVocabStem_tail h)
    cases pw with
    | true => simp [rvGo, hr (isWordChar c)]
    | false => simp [rvGo, htv, hr (isWordChar c)]

/-- No two adjacent whitespace characters (so stage 5a's `\s{2,}` never
fires). -/
def noAdjWs : List Char → Bool
  | c :: d :: r => !(isWsChar c && isWsChar d) && noAdjWs (d :: r)
  | _ => true

theorem collapseWs2_cons_nonws {c : Char} {r : List Char}
    (h : isWsChar c = false) :
    collapseWs2 false (c :: r) = c :: collapseWs2 false r := by
  cases r <;> simp [collapseWs2, h]

theorem collapseWs2_cons_ws_nonws {c d : Char} {r' : List Char}
    (hc : isWsChar c = true) (hd : isWsChar d = false) :
    collapseWs2 false (c :: d :: r') = c :: collapseWs2 false (d :: r') := by
  simp [collapseWs2, hc, hd]

theorem collapseWs2_eq_self {l : List Char} (h : noAdjWs l = true) :
    collapseWs2 false l = l := by
  induction l with
  | nil => rfl
  | cons c r ih =>
    cases r with
    | nil =>
      by_cases hw : isWsChar c = true
      · simp [collapseWs2, hw]
      · simp [collapseWs2, hw]
    | cons d r' =>
      simp only [noAdjWs, Bool.and_eq_true] at h
      have ihr := ih h.2
      by_cases hw : isWsChar c = true
      · have hd : isWsChar d = false := by
          rcases (by simpa using h.1 : isWsChar c = false ∨ isWsChar d = false)
            with h' | h'
          · exact absurd hw (by simp [h'])
          · exact h'
        rw [collapseWs2_cons_ws_nonws hw hd, ihr]
      · rw [collapseWs2_cons_nonws (by simpa using hw), ihr]

theorem dropWhile_eq_self_of_head {p : Char → Bool} {l : List Char}
    (h : l.head?.all (fun c => !p c) = true) : l.dropWhile p = l := by
  cases l with
  | nil => rfl
  | cons c r =>
    have hc : p c = false := by simpa using h
    simp [List.dropWhile, hc]

theorem trimTrailBy_eq_self {p : Char → Bool} {l : List Char}
    (h : l.getLast?.all (fun c => !p c) = true) : trimTrailBy p l = l := by
  induction l with
  | nil => rfl
  | cons c r ih =>
    cases r with
    | nil =>
      have hc : p c = false := by simpa [List.getLast?] using h
      simp [trimTrailBy, hc]
    | cons d r' =>
      have h' : (d :: r').getLast?.all (fun c => !p c) = true := by
        rw [← List.getLast?_cons_cons (a := c)]
        exact h
      have ihr := ih h'
      rw [trimTrailBy, ihr]
      simp

/-- C3 (amended): `clean` is idempotent on every string whose cleaned form is
boilerplate-free — no `[`, no `(`, no vocabulary stem as case-insensitive
substring, no whitespace run followed by a pipe, no two adjacent whitespace
characters, and neither end touching whitespace or the strip set
-/
theorem c3_clean_idempotent_of_boilerplate_free (s : String)
    (h1 : (cleanCore s.data).any (fun x => x == '[') = false)
    (h2 : (cleanCore s.data).any (fun x => x == '(') = false)
    (h3 : noVocabStem (cleanCore s.data) = true)
    (h4 : hasWsPipe (cleanCore s.data) = false)
    (h5 : noAdjWs (cleanCore s.data) = true)
    (h6 : (cleanCore s.data).head?.all
      (fun c => !isStripSetChar c && !isWsChar c) = true)
    (h7 : (cleanCore s.data).getLast?.all
      (fun c => !isStripSetChar c && !isWsChar c) = true) :
    clean_title (clean_title s) = clean_title s := by
  unfold clean_title
  refine congrArg String.mk ?_
  show cleanCore (cleanCore s.data) = cleanCore s.data
  set y := cleanCore s.data with hy
  have h6a : y.head?.all (fun c => !isStripSetChar c) = true := by
    cases hh : y.head? with
    | none => rfl
    | some c =>
      rw [hh] at h6
      simp only [Option.all_some, Bool.and_eq_true] at h6
      simpa using h6.1
  have h6b : y.head?.all (fun c => !isWsChar c) = true := by
    cases hh : y.head? with
    | none => rfl
    | some c =>
      rw [hh] at h6
      simp only [Option.all_some, Bool.and_eq_true] at h6
      simpa using h6.2
  have h7a : y.getLast?.all (fun c => !isStripSetChar c) = true := by
    cases hh : y.getLast? with
    | none => rfl
    | some c =>
      rw [hh] at h7
      simp only [Option.all_some, Bool.and_eq_true] at h7
      simpa using h7.1
  have h7b : y.getLast?.all (fun c => !isWsChar c) = true := by
    cases hh : y.getLast? with
    | none => rfl
    | some c =>
      rw [hh] at h7
      simp only [Option.all_some, Bool.and_eq_true] at h7
      simpa using h7.2
  show cleanCore y = y
  unfold cleanCore
  rw [rbGo_eq_self h1, rpGo_eq_self h2, rvGo_eq_self h3 false,
    stepPipe_eq_self h4, collapseWs2_eq_self h5]
  unfold trimBy trimWs trimBy
  rw [dropWhile_eq_self_of_head h6a, trimTrailBy_eq_self h7a,
    dropWhile_eq_self_of_head h6b, trimTrailBy_eq_self h7b]

/-- C3 (witness for the amended theorem at a concrete input). -/
theorem c3_clean_idempotent_witness :
    (cleanCore "Hello World".data).any (fun x => x == '[') = false ∧
      noVocabStem (cleanCore "Hello World".data) = true ∧
      clean_title (clean_title "Hello World") = clean_title "Hello World" :=
  ⟨by decide, by decide,
    c3_clean_idempotent_of_boilerplate_free "Hello World" (by decide) (by decide)
      (by decide) (by decide) (by decide) (by decide) (by decide)⟩

/-- C3 (counterexample): `clean` is not idempotent.  `"a-\t"` survives
`.strip(" -|")` because of the trailing tab; the final `.strip()` then
exposes a trailing `-` that only a second pass removes. -/
theorem c3_cex :
    clean_title "a-\t" = "a-" ∧ clean_title "a-" = "a" ∧
      clean_title (clean_title "a-\t") ≠ clean_title "a-\t" :=
  ⟨by decide, by decide, by decide⟩

/-- Length of the maximal `.`-matchable (non-newline) prefix. -/
def nnlLen (l : List Char) : Nat :=
  (l.takeWhile (fun c => !(c == '\n'))).length

/-- Engine semantics of the tail `\s*(?P<g>.+?)\s*$` of the separator
patterns: greedy `\s*` (longest whitespace prefix first), lazy nonempty
non-newline group, then `\s*$` — the remainder after the group must be all
whitespace (Python `$` also matches just before a final newline, which is
itself whitespace).  Returns the group of the first success in backtracking
order. -/
def matchTailY (rest : List Char) : Option (List Char) :=
  ((List.range (wsRunLen rest + 1)).reverse).findSome? (fun k =>
    let r2 := rest.drop k
    (List.range' 1 (nnlLen r2)).findSome? (fun y =>
      if (r2.drop y).all isWsChar then some (r2.take y) else none))

/-- Engine semantics of `^\s*(?P<X>.+?)\s*d\s*(?P<Y>.+?)\s*$` for a delimiter
character `d` (`re.match`): greedy-backtracking leading `\s*`, lazy first
group, greedy `\s*` before the delimiter (the delimiter is not whitespace, so
only the full run can precede it), then the tail pattern.  Returns the two
captured groups of the leftmost-backtracking success. -/
def matchSep (d : Char) (t : List Char) : Option (List Char × List Char) :=
  ((List.range (wsRunLen t + 1)).reverse).findSome? (fun w =>
    let r1 := t.drop w
    (List.range' 1 (nnlLen r1)).findSome? (fun x =>
      let p := r1.drop x
      match p.drop (wsRunLen p) with
      | c :: rest2 =>
        if c == d then (matchTailY rest2).map (fun yy => (r1.take x, yy))
        else none
      | [] => none))

/-- The three separator patterns of `extract_title_artist`, in source order:
delimiter and whether the first captured group is the artist.  Patterns (a)
and (b) are the same hyphen regex with the group names swapped; pattern (c)
uses the em dash. -/
def sepPatterns : List (Char × Bool) := [('-', true), ('-', false), ('—', true)]

/-- The pattern loop of `extract_title_artist`: first pattern that matches and
whose two re-cleaned groups are nonempty returns `(title, artist)`. -/
def patternPhase (pats : List (Char × Bool)) (t : List Char) :
    Option (List Char × List Char) :=
  pats.findSome? (fun db =>
    (matchSep db.1 t).bind (fun xy =>
      let artist := cleanCore (if db.2 then xy.1 else xy.2)
      let title := cleanCore (if db.2 then xy.2 else xy.1)
      if !artist.isEmpty && !title.isEmpty then some (title, artist) else none))

/-- The `" - topic"` channel suffix handling of `extract_title_artist`:
`if c.lower().endswith(" - topic"): c = c[:-8].strip()`. -/
def stripTopicSuffix (c : List Char) : List Char :=
  if (" - topic".data).isSuffixOf (toLowerList c) then
    trimWs (c.take (c.length - 8))
  else c

/-- The `extract_title_artist` function from src/main.py on character lists:
clean the video title, try the separator patterns, then the channel-based
fallbacks. -/
def extractCore (vt ct : List Char) : List Char × List Char :=
  let t := cleanCore vt
  let c := trimWs ct
  match patternPhase sepPatterns t with
  | some p => p
  | none =>
    let c2 := stripTopicSuffix c
    if !t.isEmpty && !c2.isEmpty then (t, c2)
    else (trimWs (if t.isEmpty then vt else t),
          trimWs (if c2.isEmpty then ct else c2))

/-- The `extract_title_artist` function from src/main.py on strings. -/
def extract_title_artist (videoTitle channelTitle : String) : String × String :=
  let p := extractCore videoTitle.data channelTitle.data
  (String.mk p.1, String.mk p.2)

/-- The attempt chain of the extractor with its final fallback line removed:
the pattern phase, then the topic-stripped channel pairing; `none` when both
fail. -/
def extractTry (vt ct : List Char) : Option (List Char × List Char) :=
  let t := cleanCore vt
  let c := trimWs ct
  match patternPhase sepPatterns t with
  | some p => some p
  | none =>
    let c2 := stripTopicSuffix c
    if !t.isEmpty && !c2.isEmpty then some (t, c2) else none

/-- The final fallback line of the extractor:
`(t or video_title or "").strip(), (c or channel_title or "").strip()`. -/
def extractFallback (vt ct : List Char) : List Char × List Char :=
  let t := cleanCore vt
  let c2 := stripTopicSuffix (trimWs ct)
  (trimWs (if t.isEmpty then vt else t), trimWs (if c2.isEmpty then ct else c2))

/-- C4: the extractor is total: on every pair of inputs it returns the result
of the attempt chain when one exists and otherwise the documented best-effort
fallback pair — there is no error outcome; in particular the fully empty
input yields the pair of empty strings. -/
theorem c4_extractor_total_fallback_chain :
    (∀ vt ct : List Char,
      extractCore vt ct = (extractTry vt ct).getD (extractFallback vt ct)) ∧
      extract_title_artist "" "" = ("", "") := by
  constructor
  · intro vt ct
    unfold extractCore extractTry extractFallback
    cases hp : patternPhase sepPatterns (cleanCore vt) with
    | some p => simp [hp]
    | none =>
      by_cases h : (!(cleanCore vt).isEmpty &&
          !(stripTopicSuffix (trimWs ct)).isEmpty) = true
      · simp [hp, h]
      · simp [hp, h]
  · decide

/-- The separator patterns with the dead second (title-first hyphen) pattern
removed. -/
def sepPatternsNoB : List (Char × Bool) := [('-', true), ('—', true)]

/-- The extractor built over the two remaining patterns only. -/
def extractCoreNoB (vt ct : List Char) : List Char × List Char :=
  let t := cleanCore vt
  let c := trimWs ct
  match patternPhase sepPatternsNoB t with
  | some p => p
  | none =>
    let c2 := stripTopicSuffix c
    if !t.isEmpty && !c2.isEmpty then (t, c2)
    else (trimWs (if t.isEmpty then vt else t),
          trimWs (if c2.isEmpty then ct else c2))

theorem patternPhase_second_dead (t : List Char) :
    patternPhase sepPatterns t = patternPhase sepPatternsNoB t := by
  unfold patternPhase sepPatterns sepPatternsNoB
  cases hm : matchSep '-' t with
  | none => simp [List.findSome?_cons, hm]
  | some xy =>
    by_cases hA : ¬cleanCore xy.1 = [] ∧ ¬cleanCore xy.2 = []
    · simp [List.findSome?_cons, hm, hA]
    · have hB : ¬(¬cleanCore xy.2 = [] ∧ ¬cleanCore xy.1 = []) :=
        fun hc => hA ⟨hc.2, hc.1⟩
      simp [List.findSome?_cons, hm, hA, hB]

/-- C5: the second separator pattern is dead code: since the regex engine is
deterministic, pattern (b) matches exactly when pattern (a) does, with the
same captured substrings, and its acceptance condition (both re-cleaned groups
nonempty) is the same conjunction, so removing it never changes the result of
the extractor. -/
theorem c5_second_pattern_dead (vt ct : List Char) :
    extractCore vt ct = extractCoreNoB vt ct := by
  unfold extractCore extractCoreNoB
  simp only [patternPhase_second_dead]

example : extract_title_artist "IU - Good Day" "IU" = ("Good Day", "IU") := by
  decide

example :
    extract_title_artist "Official Lyric Video: Song [HD]" "Artist - Topic" =
      (": Song", "Artist") := by
  decide

/-- An enriched record as assembled by `youtube_search_music` (§3 of the
spec); `views` is the non-negative view count. -/
structure Item where
  song_title : String
  artist : String
  title : String
  channel : String
  url : String
  views : Nat
deriving DecidableEq

/-- The preferences dict of `build_user_prefs`. -/
structure Prefs where
  keywords : List String
  keywords_lower : List String
  penalty_terms : List String
deriving DecidableEq

def lowerStr (s : String) : String := String.mk (toLowerList s.data)

def trimStr (s : String) : String := String.mk (trimWs s.data)

/-- The `build_user_prefs` function from src/main.py: split a comma string or
take a sequence, strip each keyword, drop empties, keep a lowercased parallel
list and the fixed penalty terms. -/
def build_user_prefs (keywords : String ⊕ List String) : Prefs :=
  let kws :=
    match keywords with
    | Sum.inl s => ((s.splitOn ",").map trimStr).filter (fun k => !(k == ""))
    | Sum.inr l => (l.map trimStr).filter (fun k => !(k == ""))
  ⟨kws, kws.map lowerStr, ["live", "cover", "remix"]⟩

/-- `title = (item.get("song_title") or item.get("title") or "").lower()`. -/
def itemTitleLower (it : Item) : List Char :=
  toLowerList (if it.song_title == "" then it.title else it.song_title).data

/-- `artist = (item.get("artist") or item.get("channel") or "").lower()`. -/
def itemArtistLower (it : Item) : List Char :=
  toLowerList (if it.artist == "" then it.channel else it.artist).data

/-- The scored text, `f"{title} {artist}"` lowercased. -/
def itemText (it : Item) : List Char :=
  itemTitleLower it ++ ' ' :: itemArtistLower it

/-- The keyword-matching part of `score_item`: per nonempty lowercased
keyword, 2.0 for a substring hit in the text, plus 1.0 each for a hit in the
title part and in the artist part. -/
def kw_score (it : Item) (prefs : Prefs) : ℚ :=
  prefs.keywords_lower.foldl (fun acc kw =>
    if kw == "" then acc
    else
      let a1 := if isSubList kw.data (itemText it) then acc + 2 else acc
      let a2 := if isSubList kw.data (itemTitleLower it) then a1 + 1 else a1
      if isSubList kw.data (itemArtistLower it) then a2 + 1 else a2) 0

/-- Model of `re.search(rf"\b{re.escape(t)}\b", text)` for the penalty terms
(whose first and last characters are word characters): some occurrence of `t`
has no word character on either side. -/
def wordBoundarySearch (t l : List Char) : Bool :=
  (List.range (l.length + 1)).any (fun i =>
    t.isPrefixOf (l.drop i) &&
    (decide (i = 0) || !isWordChar (l.getD (i - 1) ' ')) &&
    bAfterOk (l.drop (i + t.length)))

/-- The penalty part of `score_item`: skipped entirely when any penalty term
is among the user's lowercased keywords, otherwise 1.0 per whole-word hit. -/
def penalty_score (it : Item) (prefs : Prefs) : ℚ :=
  if prefs.penalty_terms.any (fun t => prefs.keywords_lower.contains t) then 0
  else
    prefs.penalty_terms.foldl (fun acc t =>
      if wordBoundarySearch t.data (itemText it) then acc + 1 else acc) 0

/-- The `score_item` function from src/main.py.  `l10` models the external
floating-point `math.log10`; the code's factor is `log10(views + 1)`. -/
def score_item (l10 : Nat → ℚ) (it : Item) (prefs : Prefs) : ℚ :=
  kw_score it prefs * 1.5 + l10 (it.views + 1) * 0.7 - penalty_score it prefs * 0.8

theorem foldl_count_eq_filter_length (f : String → Bool) (l : List String) (q : ℚ) :
    l.foldl (fun a t => if f t then a + 1 else a) q = q + ((l.filter f).length : ℚ) := by
  induction l generalizing q with
  | nil => simp
  | cons t r ih =>
    by_cases hf : f t = true
    · rw [List.foldl_cons, if_pos hf, ih, List.filter_cons, if_pos hf]
      simp only [List.length_cons]
      push_cast
      ring
    · rw [List.foldl_cons, if_neg (by simp [hf]), ih, List.filter_cons,
        if_neg (by simp [hf])]

/-- C6: penalty gating.  With the fixed penalty terms, if none of them is
among the lowercased keywords, the penalty is exactly the number of penalty
terms matched as whole words in the record's text; if any of them is a
keyword, the penalty is 0.  In particular a record whose text contains the
whole word `live` contributes zero penalty when `live` is a keyword and at
least 1.0 when no penalty term is a keyword. -/
theorem c6_penalty_gating (it : Item) (prefs : Prefs)
    (hpt : prefs.penalty_terms = ["live", "cover", "remix"]) :
    ((∀ t ∈ prefs.penalty_terms, t ∉ prefs.keywords_lower) →
      penalty_score it prefs =
        ((prefs.penalty_terms.filter
          (fun t => wordBoundarySearch t.data (itemText it))).length : ℚ)) ∧
    ((∃ t ∈ prefs.penalty_terms, t ∈ prefs.keywords_lower) →
      penalty_score it prefs = 0) ∧
    (("live" : String) ∈ prefs.keywords_lower → penalty_score it prefs = 0) ∧
    ((∀ t ∈ prefs.penalty_terms, t ∉ prefs.keywords_lower) →
      wordBoundarySearch "live".data (itemText it) = true →
      1 ≤ penalty_score it prefs) := by
  have hgate : ∀ h : (∃ t ∈ prefs.penalty_terms, t ∈ prefs.keywords_lower),
      penalty_score it prefs = 0 := by
    intro h
    obtain ⟨t, ht, hk⟩ := h
    have hany : prefs.penalty_terms.any
        (fun t => prefs.keywords_lower.contains t) = true := by
      simp only [List.any_eq_true]
      exact ⟨t, ht, List.elem_eq_true_of_mem hk⟩
    simp only [penalty_score]
    rw [if_pos hany]
  have hnone : ∀ h : (∀ t ∈ prefs.penalty_terms, t ∉ prefs.keywords_lower),
      penalty_score it prefs =
        ((prefs.penalty_terms.filter
          (fun t => wordBoundarySearch t.data (itemText it))).length : ℚ) := by
    intro h
    have hany : prefs.penalty_terms.any
        (fun t => prefs.keywords_lower.contains t) = false := by
      cases hb : prefs.penalty_terms.any
          (fun t => prefs.keywords_lower.contains t) with
      | false => rfl
      | true =>
        simp only [List.any_eq_true] at hb
        obtain ⟨t, ht, hk⟩ := hb
        exact absurd (List.mem_of_elem_eq_true hk) (h t ht)
    simp only [penalty_score]
    rw [if_neg (by rw [hany]; exact Bool.false_ne_true),
      foldl_count_eq_filter_length, zero_add]
  refine ⟨hnone, hgate, ?_, ?_⟩
  · intro hlive
    exact hgate ⟨"live", by simp [hpt], hlive⟩
  · intro h hmatch
    rw [hnone h]
    have hmem : ("live" : String) ∈ prefs.penalty_terms.filter
        (fun t => wordBoundarySearch t.data (itemText it)) := by
      rw [List.mem_filter]
      exact ⟨by simp [hpt], hmatch⟩
    have hpos : 0 < (prefs.penalty_terms.filter
        (fun t => wordBoundarySearch t.data (itemText it))).length :=
      List.length_pos.2 (List.ne_nil_of_mem hmem)
    exact_mod_cast Nat.one_le_iff_ne_zero.2 (Nat.pos_iff_ne_zero.1 hpos)

/-- A concrete record used by the scoring witnesses. -/
def sampleItem : Item :=
  ⟨"Live Jazz Night", "Cool Band", "Live Jazz Night (Official)",
    "Cool Band - Topic", "https://www.youtube.com/watch?v=abcdefghijk", 0⟩

/-- Concrete preferences without penalty terms among the keywords. -/
def samplePrefs : Prefs := build_user_prefs (Sum.inr ["jazz"])

/-- Concrete preferences that do contain the keyword `live`. -/
def samplePrefsLive : Prefs := build_user_prefs (Sum.inr ["Live", "jazz"])

/-- C6 (witness): at concrete inputs, the record text contains the whole word
`live`; with keywords `[jazz]` the theorem gives a penalty of at least 1,
with keywords containing `live` it gives 0. -/
theorem c6_penalty_gating_witness :
    samplePrefs.penalty_terms = ["live", "cover", "remix"] ∧
      (∀ t ∈ samplePrefs.penalty_terms, t ∉ samplePrefs.keywords_lower) ∧
      wordBoundarySearch "live".data (itemText sampleItem) = true ∧
      1 ≤ penalty_score sampleItem samplePrefs ∧
      (("live" : String) ∈ samplePrefsLive.keywords_lower) ∧
      penalty_score sampleItem samplePrefsLive = 0 :=
  ⟨rfl, by decide, by decide,
    (c6_penalty_gating sampleItem samplePrefs rfl).2.2.2 (by decide) (by decide),
    by decide,
    (c6_penalty_gating sampleItem samplePrefsLive rfl).2.2.1 (by decide)⟩

/-- C8: `score_item` is deterministic — it is a pure function of the record
and the preferences, so two evaluations on equal inputs give the identical
rational value. -/
theorem c8_score_deterministic (l10 : Nat → ℚ) (it1 it2 : Item) (p1 p2 : Prefs)
    (h1 : it1 = it2) (h2 : p1 = p2) :
    score_item l10 it1 p1 = score_item l10 it2 p2 := by
  subst h1
  subst h2
  rfl

/-- C8 (witness at a concrete input). -/
theorem c8_score_deterministic_witness :
    sampleItem = sampleItem ∧ samplePrefs = samplePrefs ∧
      score_item (fun _ => 0) sampleItem samplePrefs =
        score_item (fun _ => 0) sampleItem samplePrefs :=
  ⟨rfl, rfl,
    c8_score_deterministic (fun _ => 0) sampleItem sampleItem samplePrefs
      samplePrefs rfl rfl⟩

/-- C9: for a record with `views = 0` the popularity component vanishes
(`log10(0 + 1) = 0` — stated as the hypothesis `l10 1 = 0`, which the real
`math.log10` satisfies exactly), so the score reduces to
`kwScore * 1.5 - penalty * 0.8`. -/
theorem c9_zero_views_score (l10 : Nat → ℚ) (it : Item) (prefs : Prefs)
    (hlog : l10 1 = 0) (hviews : it.views = 0) :
    score_item l10 it prefs =
      kw_score it prefs * 1.5 - penalty_score it prefs * 0.8 := by
  simp [score_item, hviews, hlog]

/-- C9 (witness at a concrete input). -/
theorem c9_zero_views_score_witness :
    ((fun _ : Nat => (0 : ℚ)) 1 = 0) ∧ sampleItem.views = 0 ∧
      score_item (fun _ => 0) sampleItem samplePrefs =
        kw_score sampleItem samplePrefs * 1.5 -
          penalty_score sampleItem samplePrefs * 0.8 :=
  ⟨rfl, rfl, c9_zero_views_score (fun _ => 0) sampleItem samplePrefs rfl rfl⟩

/-- Round half to even (Python's `round` tie-breaking). -/
def roundHalfEven (x : ℚ) : ℤ :=
  if x - (⌊x⌋ : ℚ) < 1/2 then ⌊x⌋
  else if (1 : ℚ)/2 < x - (⌊x⌋ : ℚ) then ⌊x⌋ + 1
  else if ⌊x⌋ % 2 = 0 then ⌊x⌋ else ⌊x⌋ + 1

/-- Python `round(x, 3)` over exact rationals. -/
def pyRound3 (x : ℚ) : ℚ := ((roundHalfEven (x * 1000) : ℤ) : ℚ) / 1000

/-- Stable descending insertion: `x` is placed before the first element whose
score is not greater than `x`'s, so earlier elements win ties — the behaviour
of Python's stable `list.sort(..., reverse=True)`. -/
def insertDesc (x : Item × ℚ) : List (Item × ℚ) → List (Item × ℚ)
  | [] => [x]
  | y :: r => if x.2 < y.2 then y :: insertDesc x r else x :: y :: r

/-- Stable descending sort by the attached score. -/
def sortByScoreDesc : List (Item × ℚ) → List (Item × ℚ)
  | [] => []
  | x :: l => insertDesc x (sortByScoreDesc l)

/-- The `rank_recommendations` function from src/main.py: attach
`round(score, 3)` to a copy of every record, then sort by score descending,
stably. -/
def rank_recommendations (l10 : Nat → ℚ) (items : List Item) (prefs : Prefs) :
    List (Item × ℚ) :=
  sortByScoreDesc (items.map (fun it => (it, pyRound3 (score_item l10 it prefs))))

theorem insertDesc_perm (x : Item × ℚ) (m : List (Item × ℚ)) :
    List.Perm (insertDesc x m) (x :: m) := by
  induction m with
  | nil => exact List.Perm.refl _
  | cons y r ih =>
    by_cases h : x.2 < y.2
    · simp only [insertDesc, h, if_true]
      exact ((ih.cons y).trans (List.Perm.swap x y r))
    · simp only [insertDesc, h, if_false]
      exact List.Perm.refl _

theorem sortByScoreDesc_perm (l : List (Item × ℚ)) :
    List.Perm (sortByScoreDesc l) l := by
  induction l with
  | nil => exact List.Perm.refl _
  | cons x r ih =>
    exact (insertDesc_perm x (sortByScoreDesc r)).trans (ih.cons x)

theorem insertDesc_pairwise {x : Item × ℚ} {m : List (Item × ℚ)}
    (h : List.Pairwise (fun a b : Item × ℚ => b.2 ≤ a.2) m) :
    List.Pairwise (fun a b : Item × ℚ => b.2 ≤ a.2) (insertDesc x m) := by
  induction m with
  | nil => exact List.pairwise_singleton _ _
  | cons y r ih =>
    rcases List.pairwise_cons.1 h with ⟨hy, hr⟩
    by_cases hlt : x.2 < y.2
    · simp only [insertDesc, hlt, if_true]
      refine List.pairwise_cons.2 ⟨?_, ih hr⟩
      intro z hz
      rcases List.mem_cons.1 ((insertDesc_perm x r).mem_iff.1 hz) with hz | hz
      · exact hz ▸ le_of_lt hlt
      · exact hy z hz
    · simp only [insertDesc, hlt, if_false]
      refine List.pairwise_cons.2 ⟨?_, h⟩
      intro z hz
      rcases List.mem_cons.1 hz with hz | hz
      · exact hz ▸ le_of_not_lt hlt
      · exact le_trans (hy z hz) (le_of_not_lt hlt)

theorem sortByScoreDesc_pairwise (l : List (Item × ℚ)) :
    List.Pairwise (fun a b : Item × ℚ => b.2 ≤ a.2) (sortByScoreDesc l) := by
  induction l with
  | nil => exact List.Pairwise.nil
  | cons x r ih => exact insertDesc_pairwise ih

theorem insertDesc_filter_eq (x : Item × ℚ) (m : List (Item × ℚ)) (q : ℚ)
    (hx : x.2 = q) :
    (insertDesc x m).filter (fun a => decide (a.2 = q)) =
      x :: m.filter (fun a => decide (a.2 = q)) := by
  induction m with
  | nil => simp [insertDesc, List.filter_cons, hx]
  | cons y r ih =>
    by_cases hlt : x.2 < y.2
    · have hy : ¬(y.2 = q) := by
        intro hq
        rw [hx, hq] at hlt
        exact lt_irrefl _ hlt
      simp only [insertDesc, hlt, if_true, List.filter_cons]
      rw [if_neg (by simpa using hy), ih]
      simp [List.filter_cons, hy]
    · simp only [insertDesc, hlt, if_false, List.filter_cons]
      rw [if_pos (by simpa using hx)]

theorem insertDesc_filter_ne (x : Item × ℚ) (m : List (Item × ℚ)) (q : ℚ)
    (hx : ¬(x.2 = q)) :
    (insertDesc x m).filter (fun a => decide (a.2 = q)) =
      m.filter (fun a => decide (a.2 = q)) := by
  induction m with
  | nil => simp [insertDesc, List.filter_cons, hx]
  | cons y r ih =>
    by_cases hlt : x.2 < y.2
    · simp only [insertDesc, hlt, if_true, List.filter_cons]
      rw [ih]
    · simp only [insertDesc, hlt, if_false, List.filter_cons]
      rw [if_neg (by simpa using hx)]

theorem sortByScoreDesc_filter_eq (l : List (Item × ℚ)) (q : ℚ) :
    (sortByScoreDesc l).filter (fun a => decide (a.2 = q)) =
      l.filter (fun a => decide (a.2 = q)) := by
  induction l with
  | nil => rfl
  | cons x r ih =>
    by_cases hx : x.2 = q
    · rw [sortByScoreDesc, insertDesc_filter_eq x _ q hx, ih, List.filter_cons,
        if_pos (by simpa using hx)]
    · rw [sortByScoreDesc, insertDesc_filter_ne x _ q hx, ih, List.filter_cons,
        if_neg (by simpa using hx)]

/-- C7: `rank_recommendations` returns as many scored records as it received,
the underlying records are a permutation of the input (every record exactly
once, none dropped), the scores along the output are non-increasing, and
records with equal score keep their original relative order (the filter at
every score value equals the filter of the unsorted scored list). -/
theorem c7_rank_complete_sorted_stable (l10 : Nat → ℚ) (items : List Item)
    (prefs : Prefs) :
    (rank_recommendations l10 items prefs).length = items.length ∧
      List.Perm ((rank_recommendations l10 items prefs).map Prod.fst) items ∧
      List.Pairwise (fun a b : Item × ℚ => b.2 ≤ a.2)
        (rank_recommendations l10 items prefs) ∧
      (∀ q : ℚ,
        (rank_recommendations l10 items prefs).filter (fun a => decide (a.2 = q)) =
          (items.map (fun it => (it, pyRound3 (score_item l10 it prefs)))).filter
            (fun a => decide (a.2 = q))) := by
  unfold rank_recommendations
  refine ⟨?_, ?_, sortByScoreDesc_pairwise _, fun q => sortByScoreDesc_filter_eq _ q⟩
  · rw [(sortByScoreDesc_perm _).length_eq, List.length_map]
  · have hp := (sortByScoreDesc_perm
      (items.map (fun it => (it, pyRound3 (score_item l10 it prefs))))).map Prod.fst
    have hmap : (items.map
        (fun it => (it, pyRound3 (score_item l10 it prefs)))).map Prod.fst
        = items := by
      rw [List.map_map]
      exact List.map_id' items
    rw [hmap] at hp
    exact hp

/-- The body of the ranking loop at the Python dict level: each input record
(second component: a pre-existing `score` entry, if any) is read, `dict(it)`
copies it, the rounded score is written on the copy only, and the original is
threaded through unchanged.  Returns (the input records as they are after the
loop, the list of scored copies in input order). -/
def rankLoop (l10 : Nat → ℚ) (prefs : Prefs) :
    List (Item × Option ℚ) → List (Item × Option ℚ) × List (Item × ℚ)
  | [] => ([], [])
  | it :: rest =>
    let s := score_item l10 it.1 prefs
    let it2 : Item × ℚ := (it.1, pyRound3 s)
    let done := rankLoop l10 prefs rest
    (it :: done.1, it2 :: done.2)

/-- `rank_recommendations` at the dict level: run the loop, then sort the
fresh copies; the first component is the state of the input records after the
call. -/
def rank_recommendations_state (l10 : Nat → ℚ)
    (items : List (Item × Option ℚ)) (prefs : Prefs) :
    List (Item × Option ℚ) × List (Item × ℚ) :=
  let done := rankLoop l10 prefs items
  (done.1, sortByScoreDesc done.2)

/-- C10: `rank_recommendations` does not mutate its input: the score is
written only on the `dict(it)` copies, so after the call the input records
are exactly as before. -/
theorem c10_rank_does_not_mutate_input (l10 : Nat → ℚ)
    (items : List (Item × Option ℚ)) (prefs : Prefs) :
    (rank_recommendations_state l10 items prefs).1 = items := by
  unfold rank_recommendations_state
  induction items with
  | nil => rfl
  | cons it rest ih =>
    simp only [rankLoop]
    exact congrArg (it :: ·) ih
